import Mathlib

/-!
Verification of the rom object-mapper core against its specification.

The development shallowly embeds the relevant parts of the source:

* `src/rom/util.py` — the string score codec (`_bigint_to_float`,
  `_prefix_score`) and the unique-constraint value encoding
  (`_encode_unique_constraint`);
* `src/rom/index.py` — the glob-to-Lua-pattern conversion
  (`_pattern_to_lua_pattern`) and the work-estimation script
  (`_estimate_work_lua`);
* `src/rom/model.py` — the atomic writer script (`_redis_writer_lua`)
  over an explicit model of the backing store;
* `src/rom/columns.py` — the per-column serialisation codecs and the
  `PrimaryKey` descriptor.

Byte strings are modelled as `List ℕ` with the bound `< 256` carried as a
hypothesis where a proof needs it.  Machine integers do not occur; the only
floating-point computation the claims touch (`_bigint_to_float`) is exact on
its asserted domain (`v < 0x7fe0000000000000`, well inside the 2⁵³ headroom of
the product's mantissa), so it is modelled by the exact rational value of the
double it produces.
-/

namespace Rom

/-- A byte string: each element is one byte (theorems carry `< 256` bounds). -/
abbrev Bytes := List ℕ

/-! ## Score codec (`src/rom/util.py`) -/

/-- Embedding of `util._bigint_to_float`: split `|v|` as
`(exponent, mantissa) = divmod(v, 2**52)` and produce
`sign * (2**52 + mantissa) * 2.0**(exponent - 52 - 1022)`.  The value is
returned as the exact rational the double computes (exact on the source's
asserted domain). -/
def bigint_to_float (v : ℤ) : ℚ :=
  (if v < 0 then -1 else 1) *
    (((2 ^ 52 + v.natAbs % 2 ^ 52) * 2 ^ (v.natAbs / 2 ^ 52) : ℕ) : ℚ) / 2 ^ 1074

/-- The big-endian base-258 accumulation loop of `util._prefix_score`:
`score = 0; for ch in v: score = score * 258 + (ch + 1)`. -/
def base258 (v : Bytes) : ℕ := v.foldl (fun score ch => score * 258 + (ch + 1)) 0

/-- Embedding of `util._prefix_score(v, next)`: accumulate the first 7 bytes
in base 258 with digit `byte + 1`, add one if `next`, then left-pad by
`258 ** max(0, 7 - len(v))`, and map through `_bigint_to_float`.  The source
returns `repr` of the resulting double; we model the numeric value that the
repr denotes. -/
def prefix_score (v : Bytes) (next : Bool) : ℚ :=
  bigint_to_float (((base258 (v.take 7) + (if next then 1 else 0)) * 258 ^ (7 - v.length) : ℕ) : ℤ)

lemma bigint_core_lt {v w : ℕ} (h : v < w) :
    (2 ^ 52 + v % 2 ^ 52) * 2 ^ (v / 2 ^ 52) < (2 ^ 52 + w % 2 ^ 52) * 2 ^ (w / 2 ^ 52) := by
  have hd : v / 2 ^ 52 ≤ w / 2 ^ 52 := Nat.div_le_div_right h.le
  rcases eq_or_lt_of_le hd with he | hlt
  · have hv := Nat.div_add_mod v (2 ^ 52)
    have hw := Nat.div_add_mod w (2 ^ 52)
    have hm : v % 2 ^ 52 < w % 2 ^ 52 := by omega
    have hp : 0 < 2 ^ (w / 2 ^ 52) := Nat.pos_pow_of_pos _ (by norm_num)
    rw [he]
    exact Nat.mul_lt_mul_of_lt_of_le (by omega) le_rfl hp
  · have hmv : v % 2 ^ 52 < 2 ^ 52 := Nat.mod_lt _ (by norm_num)
    calc (2 ^ 52 + v % 2 ^ 52) * 2 ^ (v / 2 ^ 52)
        < 2 ^ 53 * 2 ^ (v / 2 ^ 52) := by
          have hp : 0 < 2 ^ (v / 2 ^ 52) := Nat.pos_pow_of_pos _ (by norm_num)
          have : 2 ^ 52 + v % 2 ^ 52 < 2 ^ 53 := by
            have : (2 : ℕ) ^ 53 = 2 ^ 52 + 2 ^ 52 := by norm_num
            omega
          exact Nat.mul_lt_mul_of_lt_of_le this le_rfl hp
      _ = 2 ^ 52 * 2 ^ (v / 2 ^ 52 + 1) := by rw [pow_succ]; ring
      _ ≤ 2 ^ 52 * 2 ^ (w / 2 ^ 52) := by
          exact Nat.mul_le_mul_left _ (Nat.pow_le_pow_right (by norm_num) (by omega))
      _ ≤ (2 ^ 52 + w % 2 ^ 52) * 2 ^ (w / 2 ^ 52) := by
          exact Nat.mul_le_mul_right _ (by omega)

/-- `_bigint_to_float` is strictly monotone on natural inputs. -/
lemma bigint_to_float_lt {v w : ℕ} (h : v < w) :
    bigint_to_float (v : ℤ) < bigint_to_float (w : ℤ) := by
  unfold bigint_to_float
  rw [if_neg (by exact_mod_cast Nat.not_lt_zero v), if_neg (by exact_mod_cast Nat.not_lt_zero w)]
  simp only [Int.natAbs_ofNat, one_mul]
  rw [div_lt_div_iff_of_pos_right (by positivity)]
  exact_mod_cast bigint_core_lt h

lemma foldl_base258 (l : Bytes) (a : ℕ) :
    l.foldl (fun score ch => score * 258 + (ch + 1)) a = a * 258 ^ l.length + base258 l := by
  induction l generalizing a with
  | nil => simp [base258]
  | cons c t ih =>
      have hc : base258 (c :: t) = (c + 1) * 258 ^ t.length + base258 t := by
        show List.foldl _ ((0 : ℕ) * 258 + (c + 1)) t = _
        rw [ih]
        ring_nf
      show List.foldl _ (a * 258 + (c + 1)) t = _
      rw [ih, hc, List.length_cons, pow_succ]
      ring

lemma base258_cons (c : ℕ) (l : Bytes) :
    base258 (c :: l) = (c + 1) * 258 ^ l.length + base258 l := by
  show List.foldl _ ((0 : ℕ) * 258 + (c + 1)) l = _
  rw [foldl_base258]
  ring_nf

lemma base258_lt (l : Bytes) (hb : ∀ c ∈ l, c < 256) : base258 l < 258 ^ l.length := by
  induction l with
  | nil => simp [base258]
  | cons c t ih =>
      have hc : c < 256 := hb c (by simp)
      have ht : base258 t < 258 ^ t.length := ih (fun x hx => hb x (by simp [hx]))
      rw [base258_cons, List.length_cons, pow_succ]
      have h1 : (c + 1) * 258 ^ t.length + base258 t < (c + 2) * 258 ^ t.length := by
        nlinarith
      have h2 : (c + 2) * 258 ^ t.length ≤ 258 ^ t.length * 258 := by
        rw [mul_comm (258 ^ t.length) 258]
        exact Nat.mul_le_mul_right _ (by omega)
      omega

lemma base258_pos (c : ℕ) (l : Bytes) : 0 < base258 (c :: l) := by
  rw [base258_cons]
  have : 0 < 258 ^ l.length := Nat.pos_pow_of_pos _ (by norm_num)
  positivity

/-- Value of a byte string left-padded with the 0 sentinel digit to width `n`. -/
def pval (n : ℕ) (v : Bytes) : ℕ := base258 v * 258 ^ (n - v.length)

lemma pval_cons {n : ℕ} (c : ℕ) (l : Bytes) (h : l.length + 1 ≤ n) :
    pval n (c :: l) = (c + 1) * 258 ^ (n - 1) + pval (n - 1) l := by
  unfold pval
  rw [base258_cons, List.length_cons, add_mul]
  congr 1
  · rw [mul_assoc, ← pow_add]
    congr 2
    omega
  · congr 2
    omega

lemma pval_lt_pow {n : ℕ} (l : Bytes) (hb : ∀ c ∈ l, c < 256) (h : l.length ≤ n) :
    pval n l < 258 ^ n := by
  unfold pval
  calc base258 l * 258 ^ (n - l.length) < 258 ^ l.length * 258 ^ (n - l.length) := by
        have hp : 0 < 258 ^ (n - l.length) := Nat.pos_pow_of_pos _ (by norm_num)
        exact Nat.mul_lt_mul_of_lt_of_le (base258_lt l hb) le_rfl hp
    _ = 258 ^ n := by rw [← pow_add]; congr 1; omega

/-- Padded base-258 values respect the lexicographic order on byte strings of
bounded length (the 0 padding digit is strictly below every byte digit). -/
lemma pval_lt_of_lex {x y : Bytes} (hlex : List.Lex (· < ·) x y) :
    ∀ n : ℕ, (∀ c ∈ x, c < 256) → (∀ c ∈ y, c < 256) →
      x.length ≤ n → y.length ≤ n → pval n x < pval n y := by
  induction hlex with
  | nil =>
      rename_i b l
      intro n _ hby _ hl
      unfold pval
      have h1 : base258 ([] : Bytes) * 258 ^ (n - 0) = 0 := by simp [base258]
      simp only [List.length_nil, h1]
      have := base258_pos b l
      have : 0 < 258 ^ (n - (b :: l).length) := Nat.pos_pow_of_pos _ (by norm_num)
      positivity
  | @cons a l₁ l₂ _ ih =>
      intro n hbx hby hlx hly
      rw [pval_cons a l₁ hlx, pval_cons a l₂ hly]
      have := ih (n - 1) (fun c hc => hbx c (by simp [hc])) (fun c hc => hby c (by simp [hc]))
        (by simp at hlx; omega) (by simp at hly; omega)
      omega
  | @rel a l₁ b l₂ hab =>
      intro n hbx hby hlx hly
      rw [pval_cons a l₁ hlx, pval_cons b l₂ hly]
      have h1 : pval (n - 1) l₁ < 258 ^ (n - 1) :=
        pval_lt_pow l₁ (fun c hc => hbx c (by simp [hc])) (by simp at hlx; omega)
      have h2 : (a + 2) * 258 ^ (n - 1) ≤ (b + 1) * 258 ^ (n - 1) :=
        Nat.mul_le_mul_right _ (by omega)
      nlinarith [Nat.zero_le (pval (n - 1) l₂)]

lemma take7_pad (v : Bytes) : 7 - (v.take 7).length = 7 - v.length := by
  rw [List.length_take]
  omega

lemma prefix_score_as_pval (v : Bytes) :
    prefix_score v false = bigint_to_float ((pval 7 (v.take 7) : ℕ) : ℤ) := by
  unfold prefix_score pval
  rw [take7_pad]
  norm_num

lemma base258_eq_ofDigits (l : Bytes) :
    base258 l = Nat.ofDigits 258 ((l.map (· + 1)).reverse) := by
  induction l with
  | nil => simp [base258, Nat.ofDigits]
  | cons c t ih =>
      rw [base258_cons, ih]
      simp only [List.map_cons, List.reverse_cons]
      rw [Nat.ofDigits_append]
      simp only [List.length_reverse, List.length_map]
      simp [Nat.ofDigits, mul_comm, add_comm]

/-- C3 counterexample: on input `"a"` (byte 97) with `next = True` the source
adds one to the accumulated integer *before* the left-padding multiplication,
producing `(98 + 1) * 258 ^ 6`, which differs from the claim's padded-then-add
value `98 * 258 ^ 6 + 1`. -/
theorem c3_counterexample :
    prefix_score [97] true ≠ bigint_to_float ((98 * 258 ^ 6 + 1 : ℕ) : ℤ) := by
  have h1 : prefix_score [97] true = bigint_to_float ((99 * 258 ^ 6 : ℕ) : ℤ) := by
    unfold prefix_score
    norm_num [base258]
  rw [h1]
  exact (bigint_to_float_lt (by norm_num)).ne'

/-- C3 (amended): `prefix_score(s, next)` is `_bigint_to_float` of the value
obtained by reading the first `min(7, len)` bytes as a base-258 integer with
digit `byte + 1`, adding one first when `next` is true, and *then* left-padding
to 7 digits by multiplying with `258 ^ (7 - len)` (the source pads after the
increment, not before). -/
theorem c3_prefix_score_formula (v : Bytes) (next : Bool) :
    prefix_score v next =
      bigint_to_float (((Nat.ofDigits 258 (((v.take 7).map (· + 1)).reverse) +
        (if next then 1 else 0)) * 258 ^ (7 - v.length) : ℕ) : ℤ) := by
  unfold prefix_score
  rw [base258_eq_ofDigits]

/-- C4: the prefix score is strictly monotone: `prefix_score s < prefix_score
(s, next=True)` for nonempty `s`, and scores respect the lexicographic order of
the first 7 bytes of the inputs. -/
theorem c4_prefix_score_strict_mono :
    (∀ s : Bytes, s ≠ [] → prefix_score s false < prefix_score s true) ∧
    (∀ a b : Bytes, (∀ c ∈ a, c < 256) → (∀ c ∈ b, c < 256) →
      List.Lex (· < ·) (a.take 7) (b.take 7) →
        prefix_score a false < prefix_score b false) := by
  constructor
  · intro s _
    unfold prefix_score
    apply bigint_to_float_lt
    have hp : 0 < 258 ^ (7 - s.length) := Nat.pos_pow_of_pos _ (by norm_num)
    apply Nat.mul_lt_mul_of_lt_of_le _ le_rfl hp
    norm_num
  · intro a b hba hbb hlex
    rw [prefix_score_as_pval, prefix_score_as_pval]
    apply bigint_to_float_lt
    exact pval_lt_of_lex hlex 7
      (fun c hc => hba c (List.take_subset _ _ hc))
      (fun c hc => hbb c (List.take_subset _ _ hc))
      (by rw [List.length_take]; omega)
      (by rw [List.length_take]; omega)

/-- Witness for C4 at concrete inputs `"h"`, `"a"`, `"b"`. -/
theorem c4_witness :
    prefix_score [104] false < prefix_score [104] true ∧
      prefix_score [97] false < prefix_score [98] false := by
  refine ⟨c4_prefix_score_strict_mono.1 [104] (by simp), ?_⟩
  exact c4_prefix_score_strict_mono.2 [97] [98]
    (by intro c hc; simp at hc; omega)
    (by intro c hc; simp at hc; omega)
    (by decide)

/-! ## Unique-constraint value encoding (`util._encode_unique_constraint`) -/

/-- Embedding of `util._encode_unique_constraint`.  Components arrive as byte
strings after the source's text/other-value coercions, with `none` for an
absent value; `col or b''` maps `none` to the empty byte string; every
component is prefixed by two null bytes and the pieces are joined with a
single null byte. -/
def encode_unique_constraint (data : List (Option Bytes)) : Bytes :=
  List.intercalate [0] (data.map (fun col => 0 :: 0 :: col.getD []))

lemma encode_uc_nil : encode_unique_constraint [] = [] := rfl

lemma encode_uc_single (c : Option Bytes) :
    encode_unique_constraint [c] = 0 :: 0 :: c.getD [] := by
  simp [encode_unique_constraint, List.intercalate]

lemma encode_uc_cons (c d : Option Bytes) (rest : List (Option Bytes)) :
    encode_unique_constraint (c :: d :: rest) =
      0 :: 0 :: (c.getD [] ++ 0 :: encode_unique_constraint (d :: rest)) := by
  simp [encode_unique_constraint, List.intercalate, List.intersperse]

lemma null_free_token_eq : ∀ (c₁ : Bytes) {c₂ s₁ s₂ : Bytes}, 0 ∉ c₁ → 0 ∉ c₂ →
    c₁ ++ 0 :: s₁ = c₂ ++ 0 :: s₂ → c₁ = c₂ ∧ s₁ = s₂ := by
  intro c₁
  induction c₁ with
  | nil =>
      intro c₂ s₁ s₂ _ h₂ he
      cases c₂ with
      | nil =>
          simp only [List.nil_append, List.cons.injEq] at he
          exact ⟨rfl, he.2⟩
      | cons b t =>
          simp only [List.nil_append, List.cons_append, List.cons.injEq] at he
          exact absurd (he.1 ▸ List.mem_cons_self b t) h₂
  | cons a t ih =>
      intro c₂ s₁ s₂ h₁ h₂ he
      cases c₂ with
      | nil =>
          simp only [List.cons_append, List.nil_append, List.cons.injEq] at he
          exact absurd (he.1 ▸ List.mem_cons_self a t) h₁
      | cons b t₂ =>
          simp only [List.cons_append, List.cons.injEq] at he
          obtain ⟨hab, he⟩ := he
          obtain ⟨ht, hs⟩ := ih (fun h => h₁ (List.mem_cons_of_mem a h))
            (fun h => h₂ (List.mem_cons_of_mem b h)) he
          exact ⟨by rw [hab, ht], hs⟩

lemma null_free_no_sep {c₁ c₂ s₁ : Bytes} (h₂ : 0 ∉ c₂) :
    c₁ ++ 0 :: s₁ ≠ c₂ := by
  intro he
  apply h₂
  rw [← he]
  exact List.mem_append_right _ (List.mem_cons_self 0 s₁)

/-- C5 counterexample: the components `[b"\x00", b""]` and `[b"", b"\x00"]`
are distinct but encode to the same six null bytes, so the encoding is not
injective once component values may contain null bytes. -/
theorem c5_counterexample :
    encode_unique_constraint [some [0], some []] =
        encode_unique_constraint [some [], some [0]] ∧
      ([some [0], some []] : List (Option Bytes)) ≠ [some [], some [0]] := by
  constructor
  · rfl
  · decide

/-- C5 (amended): the unique-constraint encoding is injective on sequences of
present components that contain no null bytes (with null bytes in a component,
or with `none` versus an empty string, distinct sequences can collide). -/
theorem c5_encode_unique_injective :
    ∀ (d₁ d₂ : List Bytes), (∀ c ∈ d₁, 0 ∉ c) → (∀ c ∈ d₂, 0 ∉ c) →
      encode_unique_constraint (d₁.map some) = encode_unique_constraint (d₂.map some) →
      d₁ = d₂ := by
  intro d₁
  induction d₁ with
  | nil =>
      intro d₂ _ _ he
      cases d₂ with
      | nil => rfl
      | cons c r =>
          rw [List.map_nil, encode_uc_nil, List.map_cons] at he
          cases r with
          | nil =>
              rw [List.map_nil, encode_uc_single] at he
              exact absurd he (by simp)
          | cons d r' => rw [List.map_cons, encode_uc_cons] at he; exact absurd he (by simp)
  | cons c₁ r₁ ih =>
      intro d₂ h₁ h₂ he
      cases d₂ with
      | nil =>
          rw [List.map_nil, encode_uc_nil, List.map_cons] at he
          cases r₁ with
          | nil =>
              rw [List.map_nil, encode_uc_single] at he
              exact absurd he (by simp)
          | cons d r' => rw [List.map_cons, encode_uc_cons] at he; exact absurd he (by simp)
      | cons c₂ r₂ =>
          simp only [List.map_cons] at he
          cases r₁ with
          | nil =>
              cases r₂ with
              | nil =>
                  rw [List.map_nil, encode_uc_single, encode_uc_single] at he
                  simp only [List.cons.injEq, Option.getD_some, true_and] at he
                  rw [he]
              | cons d₂' r₂' =>
                  rw [List.map_nil, List.map_cons, encode_uc_single, encode_uc_cons] at he
                  simp only [List.cons.injEq, Option.getD_some, true_and] at he
                  exact absurd he.symm (null_free_no_sep (h₁ c₁ (by simp)))
          | cons d₁' r₁' =>
              cases r₂ with
              | nil =>
                  rw [List.map_nil, List.map_cons, encode_uc_single, encode_uc_cons] at he
                  simp only [List.cons.injEq, Option.getD_some, true_and] at he
                  exact absurd he (null_free_no_sep (h₂ c₂ (by simp)))
              | cons d₂' r₂' =>
                  rw [List.map_cons, List.map_cons, encode_uc_cons, encode_uc_cons] at he
                  simp only [List.cons.injEq, Option.getD_some, true_and] at he
                  obtain ⟨hc, hr⟩ := null_free_token_eq c₁ (h₁ c₁ (by simp)) (h₂ c₂ (by simp)) he
                  have := ih (d₂' :: r₂') (fun c hc => h₁ c (List.mem_cons_of_mem c₁ hc))
                    (fun c hc => h₂ c (List.mem_cons_of_mem c₂ hc))
                    (by rw [List.map_cons, List.map_cons]; exact hr)
                  rw [hc, this]

/-- Witness for C5 (amended) at the concrete components `[b"ab"]`, `[b"ab"]`. -/
theorem c5_witness : ([[97, 98]] : List Bytes) = [[97, 98]] :=
  c5_encode_unique_injective [[97, 98]] [[97, 98]] (by decide) (by decide) rfl

/-! ## Glob-to-Lua-pattern conversion (`src/rom/index.py`) -/

/-- Membership in the metacharacter class of `index.SPECIAL`, the regex
character class `[-().%[^$]`. -/
def isSpecialChar (c : Char) : Bool :=
  c = '-' || c = '(' || c = ')' || c = '.' || c = '%' || c = '[' || c = '^' || c = '$'

/-- Embedding of `SPECIAL.sub('%\1', pat)`.  The replacement string in the
source is `'%\1'`, whose `\1` is the literal control character U+0001 (the
backreference would be spelled `'%\\1'`), so each metacharacter is replaced by
`'%'` followed by U+0001 and the original character is dropped. -/
def subSpecial (l : List Char) : List Char :=
  l.flatMap (fun c => if isSpecialChar c then ['%', Char.ofNat 1] else [c])

/-- Python `str.replace(t, r)` for a one-character target `t`. -/
def replaceChar (t : Char) (r : List Char) (l : List Char) : List Char :=
  l.flatMap (fun c => if c = t then r else [c])

/-- Embedding of `index._pattern_to_lua_pattern`: the escape pass followed by
the four wildcard rewrites in source order. -/
def pattern_to_lua_pattern (p : List Char) : List Char :=
  replaceChar '!' ['.']
    (replaceChar '+' ['.', '+']
      (replaceChar '*' ['.', '-']
        (replaceChar '?' ['.', '?'] (subSpecial p))))

/-- C8: the wildcard rewrites behave as claimed, but the escape pass does not
escape: on the glob `"("` the converted pattern is `'%'` followed by the
control character U+0001 — the metacharacter itself is lost — instead of the
claimed two-character escape `"%("`. -/
theorem c8_pattern_escape_bug :
    pattern_to_lua_pattern ['('] = ['%', Char.ofNat 1] ∧
      pattern_to_lua_pattern ['('] ≠ ['%', '('] ∧
      pattern_to_lua_pattern ['a', '?', '*', '+', '!'] =
        ['a', '.', '?', '.', '-', '.', '+', '.'] := by
  refine ⟨rfl, by decide, rfl⟩

/-! ## Work estimation (`index._estimate_work_lua`, `:idx` range branch) -/

/-- A scored index is modelled by the multiset of its member scores; redis
rank queries are defined below by counting, which is exactly their semantics
on a sorted set. -/
abbrev ZScores := List ℚ

/-- Lower-bound test for a score (`none` encodes `'-inf'`). -/
def loLE (lo : Option ℚ) (x : ℚ) : Bool :=
  match lo with
  | none => true
  | some l => l ≤ x

/-- Upper-bound test for a score (`none` encodes `'inf'`). -/
def hiGE (hi : Option ℚ) (x : ℚ) : Bool :=
  match hi with
  | none => true
  | some h => x ≤ h

/-- Rank of the first member with score within the lower bound
(`ZRANGEBYSCORE idx ARGV[1] inf LIMIT 0 1` followed by `ZRANK`): the number of
members strictly below the bound.  The script leaves `start_index = 0` when no
member qualifies. -/
def zstartIdx (scores : ZScores) (lo : Option ℚ) : ℕ :=
  if scores.any (loLE lo) then scores.countP (fun x => !loLE lo x) else 0

/-- Rank of the last member with score within the upper bound
(`ZREVRANGEBYSCORE idx ARGV[2] -inf LIMIT 0 1` followed by `ZRANK`): one less
than the number of members at or below the bound.  When no member qualifies
this is the script's default `end_index = -1`. -/
def zendIdx (scores : ZScores) (hi : Option ℚ) : ℤ :=
  (scores.countP (hiGE hi) : ℤ) - 1

/-- The script's `range_size = math.max(0, end_index - start_index + 1)`. -/
def rangeWindow (scores : ZScores) (lo hi : Option ℚ) : ℤ :=
  max 0 (zendIdx scores hi - zstartIdx scores lo + 1)

/-- Embedding of the two-endpoint `:idx` branch of `index._estimate_work_lua`:
`size = size + size - range_size` (deletions a full-copy-then-prune pays),
`range_size = range_size * 2` (ranges cost double), then return the negated
doubled range when it is strictly cheaper, else the adjusted size. -/
def estimate_work_range (scores : ZScores) (lo hi : Option ℚ) : ℤ :=
  if rangeWindow scores lo hi * 2 <
      (scores.length : ℤ) + scores.length - rangeWindow scores lo hi
  then -(rangeWindow scores lo hi * 2)
  else (scores.length : ℤ) + scores.length - rangeWindow scores lo hi

lemma countP_le_of_imp (l : List ℚ) (p q : ℚ → Bool)
    (h : ∀ x ∈ l, p x = true → q x = true) : l.countP p ≤ l.countP q := by
  induction l with
  | nil => simp
  | cons a t ih =>
      have ht := ih (fun x hx => h x (List.mem_cons_of_mem a hx))
      by_cases hp : p a
      · rw [List.countP_cons, List.countP_cons, if_pos (h a (List.mem_cons_self a t) hp),
          if_pos hp]
        omega
      · rw [List.countP_cons, if_neg hp, List.countP_cons]
        split <;> omega

lemma countP_split (l : List ℚ) (p q : ℚ → Bool) :
    l.countP q =
      l.countP (fun x => p x && q x) + l.countP (fun x => !p x && q x) := by
  induction l with
  | nil => simp
  | cons a t ih =>
      simp only [List.countP_cons, ih]
      by_cases hq : q a
      · by_cases hp : p a <;> simp [hq, hp] <;> omega
      · simp [hq]

lemma rangeWindow_nonneg (scores : ZScores) (lo hi : Option ℚ) :
    0 ≤ rangeWindow scores lo hi := le_max_left 0 _

lemma rangeWindow_le_length (scores : ZScores) (lo hi : Option ℚ) :
    rangeWindow scores lo hi ≤ scores.length := by
  unfold rangeWindow zendIdx
  have h1 : scores.countP (hiGE hi) ≤ scores.length := List.countP_le_length _
  have h2 : (0 : ℤ) ≤ zstartIdx scores lo := Int.natCast_nonneg _
  omega

/-- C6 counterexample: with a 3-member index and both bounds spanning 2
members, the range is exactly 2/3 of the index, yet the probe returns the
non-negative 4 (the script's threshold is strict); with a 6-member index and
the same 2-member range the probe returns −4, whose magnitude is twice the
range size rather than the range size. -/
theorem c6_counterexample :
    (List.countP (fun x => loLE (some 1) x && hiGE (some 2) x) [(1 : ℚ), 2, 3] = 2 ∧
      3 * 2 ≤ 2 * 3 ∧
      estimate_work_range [(1 : ℚ), 2, 3] (some 1) (some 2) = 4 ∧
      ¬estimate_work_range [(1 : ℚ), 2, 3] (some 1) (some 2) < 0) ∧
    (List.countP (fun x => loLE (some 1) x && hiGE (some 2) x) [(1 : ℚ), 2, 3, 4, 5, 6] = 2 ∧
      estimate_work_range [(1 : ℚ), 2, 3, 4, 5, 6] (some 1) (some 2) = -4) := by
  refine ⟨⟨by decide, by decide, by decide, by decide⟩, ⟨by decide, by decide⟩⟩

/-- C6 (amended): the probe returns a negative number precisely when the
score-bounded window is nonempty and strictly smaller than 2/3 of the index
cardinality (`3·window < 2·size`; the threshold is strict, not "at most");
the returned magnitude is then *twice* the window (the script doubles the cost
of range extraction), and otherwise the probe returns the deletion-adjusted
size `2·size − window`.  Whenever some member reaches the lower bound, the
window equals the number of members within the requested score bounds. -/
theorem c6_estimate_work_range (scores : ZScores) (lo hi : Option ℚ) :
    (estimate_work_range scores lo hi < 0 ↔
        3 * rangeWindow scores lo hi < 2 * scores.length ∧
          0 < rangeWindow scores lo hi) ∧
    (3 * rangeWindow scores lo hi < 2 * scores.length →
        estimate_work_range scores lo hi = -(2 * rangeWindow scores lo hi)) ∧
    (¬3 * rangeWindow scores lo hi < 2 * scores.length →
        estimate_work_range scores lo hi =
          2 * scores.length - rangeWindow scores lo hi) ∧
    (scores.any (loLE lo) = true →
        rangeWindow scores lo hi =
          scores.countP (fun x => loLE lo x && hiGE hi x)) := by
  have hr0 := rangeWindow_nonneg scores lo hi
  have hrs := rangeWindow_le_length scores lo hi
  refine ⟨?_, ?_, ?_, ?_⟩
  · unfold estimate_work_range
    split <;> rename_i h <;> constructor <;> intro hx <;> omega
  · unfold estimate_work_range
    split <;> rename_i h <;> intro hx <;> omega
  · unfold estimate_work_range
    split <;> rename_i h <;> intro hx <;> omega
  · intro hany
    have hstart : zstartIdx scores lo = scores.countP (fun x => !loLE lo x) := by
      unfold zstartIdx
      rw [if_pos hany]
    unfold rangeWindow zendIdx
    rw [hstart]
    by_cases hex : ∃ x ∈ scores, loLE lo x = false ∧ hiGE hi x = false
    · obtain ⟨x, hx, hxl, hxh⟩ := hex
      obtain ⟨l, hl⟩ : ∃ l, lo = some l := by
        cases lo with
        | none => simp [loLE] at hxl
        | some l => exact ⟨l, rfl⟩
      obtain ⟨h, hh⟩ : ∃ h, hi = some h := by
        cases hi with
        | none => simp [hiGE] at hxh
        | some h => exact ⟨h, rfl⟩
      subst hl hh
      simp only [loLE, hiGE, decide_eq_false_iff_not, not_le] at hxl hxh
      have hC : scores.countP (fun y => loLE (some l) y && hiGE (some h) y) = 0 := by
        rw [List.countP_eq_zero]
        intro y _
        simp only [loLE, hiGE, Bool.and_eq_true, decide_eq_true_eq, not_and]
        intro hly hyh
        exact absurd (le_trans hly (le_trans hyh hxh.le)) (not_le.mpr hxl)
      have hAB : scores.countP (hiGE (some h)) ≤
          scores.countP (fun y => !loLE (some l) y) := by
        apply countP_le_of_imp
        intro y _ hy
        simp only [hiGE, decide_eq_true_eq] at hy
        simp only [loLE, Bool.not_eq_true', decide_eq_false_iff_not, not_le]
        exact lt_of_le_of_lt (le_trans hy hxh.le) hxl
      rw [hC]
      have hAB : scores.countP (hiGE (some h)) ≤
          scores.countP (fun y => !loLE (some l) y) := by
        apply countP_le_of_imp
        intro y _ hy
        simp only [hiGE, decide_eq_true_eq] at hy
        simp only [loLE, Bool.not_eq_true', decide_eq_false_iff_not, not_le]
        exact lt_of_le_of_lt (le_trans hy hxh.le) hxl
      have hz : (↑(scores.countP (hiGE (some h))) - 1 -
          ↑(scores.countP (fun x => !loLE (some l) x)) + 1 : ℤ) ≤ 0 := by
        omega
      rw [max_eq_left hz]
      simp
    · push_neg at hex
      have himp : ∀ y ∈ scores, (!loLE lo y) = true → hiGE hi y = true := by
        intro y hy hny
        exact Bool.ne_false_iff.mp (hex y hy (by simpa using hny))
      have hsplit := countP_split scores (loLE lo) (hiGE hi)
      have h2 : scores.countP (fun y => !loLE lo y && hiGE hi y) =
          scores.countP (fun y => !loLE lo y) := by
        apply Nat.le_antisymm
        · exact countP_le_of_imp _ _ _ (fun y _ hy => by
            simpa using (Bool.and_eq_true _ _ |>.mp hy).1)
        · exact countP_le_of_imp _ _ _ (fun y hy hny => by
            simp [hny, himp y hy hny])
      have hz : (↑(scores.countP (hiGE hi)) - 1 -
          ↑(scores.countP (fun x => !loLE lo x)) + 1 : ℤ) =
          ↑(scores.countP (fun x => loLE lo x && hiGE hi x)) := by
        omega
      rw [hz, max_eq_right (Int.natCast_nonneg _)]

/-- Witness for C6 (amended) at a concrete 6-member index and range. -/
theorem c6_witness :
    estimate_work_range [(1 : ℚ), 2, 3, 4, 5, 6] (some 1) (some 2) =
        -(2 * rangeWindow [(1 : ℚ), 2, 3, 4, 5, 6] (some 1) (some 2)) ∧
      rangeWindow [(1 : ℚ), 2, 3, 4, 5, 6] (some 1) (some 2) =
        List.countP (fun x => loLE (some 1) x && hiGE (some 2) x)
          [(1 : ℚ), 2, 3, 4, 5, 6] :=
  ⟨(c6_estimate_work_range [(1 : ℚ), 2, 3, 4, 5, 6] (some 1) (some 2)).2.1 (by decide),
    (c6_estimate_work_range [(1 : ℚ), 2, 3, 4, 5, 6] (some 1) (some 2)).2.2.2 (by decide)⟩

/-! ## The atomic writer script (`model._redis_writer_lua`)

The backing store is modelled with structured keys.  The source formats keys
with `'%s:%s'` / `..` concatenation; on the alphabets the mapper emits
(decimal ids, colon-free field names) those string forms are injective, so the
key constructors below are a faithful rendering.  Sets, sorted sets and hashes
are separate components, as they are separate value types in the store.  The
cleanup loops in the source issue each removal twice, once on a
`string.format` key (which truncates at null bytes) and once on a
concatenation key; for null-free terms both hit the same key, which is what
the model performs. -/

/-- Structured keys of the backing store. -/
inductive RKey
  | row (ns id : String)
  | legacy (ns : String)
  | uidx (ns col : String)
  | setIdx (ns term : String)
  | scoredIdx (ns field : String)
  | preIdx (ns field : String)
  | sufIdx (ns field : String)
  | geoIdx (ns name : String)
deriving DecidableEq

/-- An entry of the manifest's fourth (suffix) slot: normally an
`[attr, term]` pair, but the geo loop of the source appends bare name strings
here; the cleanup's `data[1] and data[2]` guard skips the bare strings. -/
inductive SufItem
  | pair (attr term : String)
  | bare (name : String)
deriving DecidableEq

/-- The 5-slot per-record index manifest
`[set_keys, scored_keys, prefix_pairs, suffix_pairs, geo_names]`.
(Shorter legacy manifests are padded with empty slots by the script; the model
carries all five slots.) -/
structure Manifest where
  sets : List String
  scored : List String
  pre : List (String × String)
  suf : List SufItem
  geo : List String
deriving DecidableEq

/-- A hash sub-value: an ordinary encoded column string, or a stored manifest
(the script writes manifests with `cjson.encode` and decodes them on read; the
model carries the decoded structure, which is all the claims observe). -/
inductive RVal
  | str (s : String)
  | man (m : Manifest)
deriving DecidableEq

/-- The backing store. -/
structure Store where
  hashes : RKey → String → Option RVal
  sets : RKey → String → Bool
  zsets : RKey → String → Option ℚ

/-- `HGET`. -/
def hget (st : Store) (k : RKey) (f : String) : Option RVal := st.hashes k f

/-- `HSET` / one pair of `HMSET`. -/
def hset (st : Store) (k : RKey) (f : String) (v : RVal) : Store :=
  { st with hashes := fun k' f' => if k' = k ∧ f' = f then some v else st.hashes k' f' }

/-- `HDEL` of a single field. -/
def hdel (st : Store) (k : RKey) (f : String) : Store :=
  { st with hashes := fun k' f' => if k' = k ∧ f' = f then none else st.hashes k' f' }

/-- `DEL` of a hash key. -/
def delKey (st : Store) (k : RKey) : Store :=
  { st with hashes := fun k' f' => if k' = k then none else st.hashes k' f' }

/-- `SADD`. -/
def sadd (st : Store) (k : RKey) (m : String) : Store :=
  { st with sets := fun k' m' => if k' = k ∧ m' = m then true else st.sets k' m' }

/-- `SREM`. -/
def srem (st : Store) (k : RKey) (m : String) : Store :=
  { st with sets := fun k' m' => if k' = k ∧ m' = m then false else st.sets k' m' }

/-- `ZADD`. -/
def zadd (st : Store) (k : RKey) (m : String) (sc : ℚ) : Store :=
  { st with zsets := fun k' m' => if k' = k ∧ m' = m then some sc else st.zsets k' m' }

/-- `ZREM`. -/
def zrem (st : Store) (k : RKey) (m : String) : Store :=
  { st with zsets := fun k' m' => if k' = k ∧ m' = m then none else st.zsets k' m' }

/-- The prefix/suffix zset member `<term>\0<id>`. -/
def zmember (term id : String) : String :=
  term ++ String.singleton (Char.ofNat 0) ++ id

/-- Modelled from the spec: `GEOADD` stores the backing store's native geohash
score for the coordinates.  No claim observes a geo entry's score — only its
membership — so the encoding's value is irrelevant and is left constant. -/
def geohashScore (_lon _lat : ℚ) : ℚ := 0

/-- The writer-script arguments, after the caller's JSON marshalling
(`model.redis_writer_lua`): `pre`/`suf` triples carry the prefix score the
caller appends, `geo` triples carry name, longitude, latitude. -/
structure WriteArgs where
  ns : String
  id : String
  unique : List (String × String)
  udelete : List (String × String)
  deleted : List String
  data : List (String × String)
  keys : List String
  scored : List (String × ℚ)
  pre : List (String × String × ℚ)
  suf : List (String × String × ℚ)
  geo : List (String × ℚ × ℚ)
  oldData : List (String × String)
  isDelete : Bool

/-- The script's reply: a change count, a unique-precheck failure naming the
column, or a data-race result naming the changed fields. -/
inductive WriteResult
  | changes (n : ℕ)
  | uniqueViolation (col : String)
  | race (fields : List String)
deriving DecidableEq

/-- One comparison of the race scan: the watched field differs when the stored
sub-value is absent or is not the expected encoded string. -/
def raceDiffers (cur : Option RVal) (expected : String) : Bool :=
  match cur with
  | some (.str s) => s != expected
  | _ => true

/-- The fields collected by the script's race scan over `ARGV[13]`. -/
def raceUpdated (st : Store) (a : WriteArgs) : List String :=
  (a.oldData.filter (fun p => raceDiffers (hget st (.row a.ns a.id) p.1) p.2)).map (·.1)

/-- The precheck pass of the unique-constraint loop: a column fails when its
unique-index hash maps the new value to a different id
(`known ~= id and known ~= false`). -/
def uniqueTaken (st : Store) (ns id : String) (p : String × String) : Bool :=
  match hget st (.uidx ns p.1) p.2 with
  | some (.str known) => known != id
  | some (.man _) => true
  | none => false

/-- Manifest lookup order of the script: the legacy `<ns>::` hash is read
first, and the per-record `-index-data-` field only when the legacy entry is
absent. -/
def readManifestVal (st : Store) (ns id : String) : Option RVal :=
  match hget st (.legacy ns) id with
  | some v => some v
  | none => hget st (.row ns id) "-index-data-"

/-- One step of the suffix-slot cleanup: genuine pairs are `ZREM`ed, bare
strings fail the source's `data[1] and data[2]` guard and are skipped. -/
def sufCleanStep (ns id : String) (s : Store) (it : SufItem) : Store :=
  match it with
  | .pair attr term => zrem s (.sufIdx ns attr) (zmember term id)
  | .bare _ => s

/-- Manifest-driven index cleanup: remove every term the manifest attributes
to the record, slot by slot. -/
def cleanManifest (ns id : String) (m : Manifest) (st : Store) : Store :=
  m.geo.foldl (fun s n => zrem s (.geoIdx ns n) id)
    (m.suf.foldl (sufCleanStep ns id)
      (m.pre.foldl (fun s p => zrem s (.preIdx ns p.1) (zmember p.2 id))
        (m.scored.foldl (fun s t => zrem s (.scoredIdx ns t) id)
          (m.sets.foldl (fun s t => srem s (.setIdx ns t) id) st))))

/-- The cleanup's `_changes` counter: one per set, scored, prefix and geo
term, and one per suffix entry that passes the pair guard. -/
def cleanChanges (m : Manifest) : ℕ :=
  m.sets.length + m.scored.length + m.pre.length +
    m.suf.countP (fun it =>
      match it with
      | .pair _ _ => true
      | .bare _ => false) +
    m.geo.length

/-- Unique commit: the write pass of the unique loop (`HSET uidx value id`). -/
def uniquePhase (st : Store) (a : WriteArgs) : Store :=
  a.unique.foldl (fun s p => hset s (.uidx a.ns p.1) p.2 (.str a.id)) st

/-- Unique removal, guarded on the entry still pointing at this id. -/
def udeletePhase (st : Store) (a : WriteArgs) : Store :=
  a.udelete.foldl (fun s p =>
    match hget s (.uidx a.ns p.1) p.2 with
    | some (.str known) => if known = a.id then hdel s (.uidx a.ns p.1) p.2 else s
    | _ => s) st

/-- `HDEL` of each deleted column from the record hash. -/
def hdelPhase (st : Store) (a : WriteArgs) : Store :=
  a.deleted.foldl (fun s f => hdel s (.row a.ns a.id) f) st

/-- `HMSET` of the changed/added columns. -/
def hmsetPhase (st : Store) (a : WriteArgs) : Store :=
  a.data.foldl (fun s p => hset s (.row a.ns a.id) p.1 (.str p.2)) st

/-- Manifest-driven cleanup with its `_changes` count; without a stored
manifest nothing is removed. -/
def cleanupPhase (st : Store) (a : WriteArgs) : Store × ℕ :=
  match readManifestVal st a.ns a.id with
  | some (.man m) => (cleanManifest a.ns a.id m st, cleanChanges m)
  | _ => (st, 0)

/-- Index re-emission: `SADD` the set terms, `ZADD` the scored, prefix and
suffix terms, and `GEOADD` the geo terms. -/
def addPhase (st : Store) (a : WriteArgs) : Store :=
  a.geo.foldl (fun s g => zadd s (.geoIdx a.ns g.1) a.id (geohashScore g.2.1 g.2.2))
    (a.suf.foldl (fun s t => zadd s (.sufIdx a.ns t.1) (zmember t.2.1 a.id) t.2.2)
      (a.pre.foldl (fun s t => zadd s (.preIdx a.ns t.1) (zmember t.2.1 a.id) t.2.2)
        (a.scored.foldl (fun s p => zadd s (.scoredIdx a.ns p.1) a.id p.2)
          (a.keys.foldl (fun s k => sadd s (.setIdx a.ns k) a.id) st))))

/-- The manifest the script stores back.  The geo loop of the source appends
the geo names to `nsuffix` instead of `ngeo`, so the suffix slot carries them
as bare strings and the geo slot is always empty. -/
def newManifest (a : WriteArgs) : Manifest where
  sets := a.keys
  scored := a.scored.map (·.1)
  pre := a.pre.map (fun t => (t.1, t.2.1))
  suf := a.suf.map (fun t => SufItem.pair t.1 t.2.1) ++ a.geo.map (fun g => SufItem.bare g.1)
  geo := []

/-- The mutating tail of the writer script, entered only after the race and
unique prechecks pass: unique commit and removal, field deletions and updates,
manifest-driven cleanup, then either record deletion or index re-emission and
the manifest write.  The returned count is the script's `changes` reply
(`#nkeys + #nscored + #nprefix + #nsuffix + #ngeo + _changes`, with `ngeo`
always empty). -/
def writerCommit (st : Store) (a : WriteArgs) : Store × ℕ :=
  let cleaned := cleanupPhase (hmsetPhase (hdelPhase (udeletePhase (uniquePhase st a) a) a) a) a
  if a.isDelete then
    (hdel (delKey cleaned.1 (.row a.ns a.id)) (.legacy a.ns) a.id, cleaned.2)
  else
    (hset (hdel (addPhase cleaned.1 a) (.legacy a.ns) a.id)
        (.row a.ns a.id) "-index-data-" (.man (newManifest a)),
      a.keys.length + a.scored.length + a.pre.length + (newManifest a).suf.length + 0 +
        cleaned.2)

/-- Embedding of `model._redis_writer_lua`: the data-race scan (skipped on
delete), the unique precheck (first failing column in iteration order), then
the mutating phases. -/
def redisWriterLua (st : Store) (a : WriteArgs) : WriteResult × Store :=
  if a.isDelete = false ∧ raceUpdated st a ≠ [] then
    (.race (raceUpdated st a), st)
  else
    match a.unique.find? (uniqueTaken st a.ns a.id) with
    | some p => (.uniqueViolation p.1, st)
    | none =>
        let r := writerCommit st a
        (.changes r.2, r.1)

/-- C2: whenever the writer script returns a unique-precheck failure or a
data-race result, the returned store is the input store unchanged — the early
returns precede every mutating command. -/
theorem c2_writer_error_returns_atomic (st : Store) (a : WriteArgs) :
    (∀ col, (redisWriterLua st a).1 = WriteResult.uniqueViolation col →
      (redisWriterLua st a).2 = st) ∧
    (∀ fields, (redisWriterLua st a).1 = WriteResult.race fields →
      (redisWriterLua st a).2 = st) := by
  unfold redisWriterLua
  split
  · exact ⟨fun _ _ => rfl, fun _ _ => rfl⟩
  · split
    · exact ⟨fun _ _ => rfl, fun _ _ => rfl⟩
    · constructor
      · intro col h
        exact absurd h (by simp)
      · intro fields h
        exact absurd h (by simp)

/-- A store holding one unique-index entry `W:email:uidx[a@b] = 1`. -/
def c2Store : Store where
  hashes := fun k f =>
    if k = RKey.uidx "W" "email" ∧ f = "a@b" then some (.str "1") else none
  sets := fun _ _ => false
  zsets := fun _ _ => none

/-- A save of id 2 claiming the already-taken unique value `a@b`. -/
def c2Args : WriteArgs where
  ns := "W"
  id := "2"
  unique := [("email", "a@b")]
  udelete := []
  deleted := []
  data := [("email", "a@b")]
  keys := []
  scored := []
  pre := []
  suf := []
  geo := []
  oldData := []
  isDelete := false

/-- Witness for C2: the colliding save above returns with the store intact. -/
theorem c2_witness : (redisWriterLua c2Store c2Args).2 = c2Store :=
  (c2_writer_error_returns_atomic c2Store c2Args).1 "email" (by decide)

lemma hset_sets (st : Store) (k : RKey) (f : String) (v : RVal) :
    (hset st k f v).sets = st.sets := rfl

lemma hdel_sets (st : Store) (k : RKey) (f : String) : (hdel st k f).sets = st.sets := rfl

lemma zadd_sets (st : Store) (k : RKey) (m : String) (sc : ℚ) :
    (zadd st k m sc).sets = st.sets := rfl

lemma zrem_sets (st : Store) (k : RKey) (m : String) : (zrem st k m).sets = st.sets := rfl

lemma foldl_sets_eq {α : Type} (f : Store → α → Store) (hf : ∀ s x, (f s x).sets = s.sets) :
    ∀ (l : List α) (st : Store), (l.foldl f st).sets = st.sets := by
  intro l
  induction l with
  | nil => intro st; rfl
  | cons c t ih => intro st; rw [List.foldl_cons, ih, hf]

lemma cleanManifest_sets (ns id : String) (m : Manifest) (st : Store) :
    (cleanManifest ns id m st).sets =
      (m.sets.foldl (fun s t => srem s (.setIdx ns t) id) st).sets := by
  unfold cleanManifest
  rw [foldl_sets_eq (fun s n => zrem s (RKey.geoIdx ns n) id) (fun s n => rfl),
    foldl_sets_eq (sufCleanStep ns id) (fun s it => by cases it <;> rfl),
    foldl_sets_eq (fun (s : Store) (p : String × String) =>
      zrem s (RKey.preIdx ns p.1) (zmember p.2 id)) (fun s p => rfl),
    foldl_sets_eq (fun s t => zrem s (RKey.scoredIdx ns t) id) (fun s t => rfl)]

lemma foldl_srem_stays_false (ns id : String) (l : List String) {k : RKey} {m : String} :
    ∀ st : Store, st.sets k m = false →
      (l.foldl (fun s x => srem s (.setIdx ns x) id) st).sets k m = false := by
  induction l with
  | nil => intro st h; exact h
  | cons c t ih =>
      intro st h
      rw [List.foldl_cons]
      apply ih
      by_cases hc : k = RKey.setIdx ns c ∧ m = id
      · show (if k = RKey.setIdx ns c ∧ m = id then false else st.sets k m) = false
        rw [if_pos hc]
      · show (if k = RKey.setIdx ns c ∧ m = id then false else st.sets k m) = false
        rw [if_neg hc]
        exact h

lemma foldl_srem_mem (ns id : String) {t : String} (l : List String) :
    ∀ st : Store, t ∈ l →
      (l.foldl (fun s x => srem s (.setIdx ns x) id) st).sets (.setIdx ns t) id = false := by
  induction l with
  | nil => intro st ht; cases ht
  | cons c r ih =>
      intro st ht
      rw [List.foldl_cons]
      rcases List.mem_cons.mp ht with rfl | hr
      · apply foldl_srem_stays_false
        show (if RKey.setIdx ns t = RKey.setIdx ns t ∧ id = id then false else _) = false
        rw [if_pos ⟨rfl, rfl⟩]
      · exact ih _ hr

lemma foldl_srem_not_mem (ns id : String) (l : List String) {k : RKey} {m : String}
    (h : ∀ x ∈ l, ¬(k = RKey.setIdx ns x ∧ m = id)) :
    ∀ st : Store, (l.foldl (fun s x => srem s (.setIdx ns x) id) st).sets k m = st.sets k m := by
  induction l with
  | nil => intro st; rfl
  | cons c r ih =>
      intro st
      rw [List.foldl_cons, ih (fun x hx => h x (List.mem_cons_of_mem c hx))]
      show (if k = RKey.setIdx ns c ∧ m = id then false else st.sets k m) = st.sets k m
      rw [if_neg (h c (List.mem_cons_self c r))]

lemma addPhase_sets_of_no_keys (st : Store) (a : WriteArgs) (hk : a.keys = []) :
    (addPhase st a).sets = st.sets := by
  unfold addPhase
  rw [foldl_sets_eq (fun (s : Store) (g : String × ℚ × ℚ) =>
      zadd s (RKey.geoIdx a.ns g.1) a.id (geohashScore g.2.1 g.2.2)) (fun s g => rfl),
    foldl_sets_eq (fun (s : Store) (t : String × String × ℚ) =>
      zadd s (RKey.sufIdx a.ns t.1) (zmember t.2.1 a.id) t.2.2) (fun s t => rfl),
    foldl_sets_eq (fun (s : Store) (t : String × String × ℚ) =>
      zadd s (RKey.preIdx a.ns t.1) (zmember t.2.1 a.id) t.2.2) (fun s t => rfl),
    foldl_sets_eq (fun (s : Store) (p : String × ℚ) =>
      zadd s (RKey.scoredIdx a.ns p.1) a.id p.2) (fun s p => rfl), hk]
  rfl

/-- On a save that changes no hash field and carries no new set terms, the
post-write membership of the set indexes is the input store cleaned through
the manifest found by `readManifestVal` — here forced to the legacy one. -/
lemma redisWriterLua_sets_of_empty (st : Store) (a : WriteArgs) (mleg : Manifest)
    (hleg : hget st (RKey.legacy a.ns) a.id = some (.man mleg))
    (hIsDel : a.isDelete = false) (hk : a.keys = []) (hdta : a.data = [])
    (hdd : a.deleted = []) (hu : a.unique = []) (hud : a.udelete = [])
    (hod : a.oldData = []) :
    (redisWriterLua st a).2.sets = (cleanManifest a.ns a.id mleg st).sets := by
  unfold redisWriterLua
  rw [if_neg (fun h => h.2 (by simp [raceUpdated, hod]))]
  rw [hu]
  simp only [List.find?_nil]
  show (writerCommit st a).1.sets = _
  unfold writerCommit
  have h1 : uniquePhase st a = st := by unfold uniquePhase; rw [hu]; rfl
  have h2 : udeletePhase st a = st := by unfold udeletePhase; rw [hud]; rfl
  have h3 : hdelPhase st a = st := by unfold hdelPhase; rw [hdd]; rfl
  have h4 : hmsetPhase st a = st := by unfold hmsetPhase; rw [hdta]; rfl
  rw [h1, h2, h3, h4]
  have hclean : cleanupPhase st a = (cleanManifest a.ns a.id mleg st, cleanChanges mleg) := by
    unfold cleanupPhase readManifestVal
    rw [hleg]
  rw [hclean, hIsDel]
  simp only [Bool.false_eq_true, if_false]
  rw [hset_sets, hdel_sets, addPhase_sets_of_no_keys _ _ hk]

/-- C9 counterexample setup: both manifest locations hold manifests, and they
differ — the legacy `M::` entry names set term `A`, the per-record
`-index-data-` field names set term `B`; the record id 7 is a member of both
set indexes. -/
def c9Store : Store where
  hashes := fun k f =>
    if k = RKey.legacy "M" ∧ f = "7" then
      some (.man { sets := ["A"], scored := [], pre := [], suf := [], geo := [] })
    else if k = RKey.row "M" "7" ∧ f = "-index-data-" then
      some (.man { sets := ["B"], scored := [], pre := [], suf := [], geo := [] })
    else none
  sets := fun k m =>
    if (k = RKey.setIdx "M" "A" ∨ k = RKey.setIdx "M" "B") ∧ m = "7" then true else false
  zsets := fun _ _ => none

/-- A pure re-index save of record 7 in namespace `M`: no data changes, no
new index terms. -/
def c9Args : WriteArgs where
  ns := "M"
  id := "7"
  unique := []
  udelete := []
  deleted := []
  data := []
  keys := []
  scored := []
  pre := []
  suf := []
  geo := []
  oldData := []
  isDelete := false

/-- C9 counterexample: with both manifest locations populated and different,
the writer removes the terms of the *legacy* `M::` manifest (id 7 leaves
`M:A:idx`) and leaves the per-record manifest's terms in place (id 7 stays in
`M:B:idx`) — the opposite of the claimed read order. -/
theorem c9_counterexample :
    c9Store.hashes (RKey.legacy "M") "7" =
        some (.man { sets := ["A"], scored := [], pre := [], suf := [], geo := [] }) ∧
      c9Store.hashes (RKey.row "M" "7") "-index-data-" =
        some (.man { sets := ["B"], scored := [], pre := [], suf := [], geo := [] }) ∧
      (redisWriterLua c9Store c9Args).2.sets (RKey.setIdx "M" "A") "7" = false ∧
      (redisWriterLua c9Store c9Args).2.sets (RKey.setIdx "M" "B") "7" = true := by
  refine ⟨by decide, by decide, by decide, by decide⟩

/-- C9 (amended): during cleanup the script reads the legacy `<ns>::` hash
*first* and falls back to the per-record `-index-data-` field only when the
legacy entry is absent; in particular, when both locations hold manifests, the
legacy manifest's terms are the ones removed, and the per-record manifest's
other terms are untouched.  (Stated for a save that changes no hash fields and
adds no set terms, so that the cleanup effect on set indexes is isolated.) -/
theorem c9_legacy_manifest_wins (st : Store) (a : WriteArgs) (mleg : Manifest)
    (hleg : hget st (RKey.legacy a.ns) a.id = some (.man mleg))
    (hIsDel : a.isDelete = false) (hk : a.keys = []) (hdta : a.data = [])
    (hdd : a.deleted = []) (hu : a.unique = []) (hud : a.udelete = [])
    (hod : a.oldData = []) :
    (∀ t ∈ mleg.sets,
      (redisWriterLua st a).2.sets (RKey.setIdx a.ns t) a.id = false) ∧
    (∀ mrow : Manifest,
      hget st (RKey.row a.ns a.id) "-index-data-" = some (.man mrow) →
      ∀ t ∈ mrow.sets, t ∉ mleg.sets →
        (redisWriterLua st a).2.sets (RKey.setIdx a.ns t) a.id =
          st.sets (RKey.setIdx a.ns t) a.id) := by
  have hsets := redisWriterLua_sets_of_empty st a mleg hleg hIsDel hk hdta hdd hu hud hod
  constructor
  · intro t ht
    rw [hsets, cleanManifest_sets]
    exact foldl_srem_mem a.ns a.id mleg.sets st ht
  · intro mrow _ t ht hnot
    rw [hsets, cleanManifest_sets]
    apply foldl_srem_not_mem
    intro x hx hx2
    apply hnot
    have : t = x := by
      have := hx2.1
      simpa using this
    rw [this]
    exact hx

/-- Witness for C9 (amended) on the concrete two-manifest store. -/
theorem c9_witness :
    (redisWriterLua c9Store c9Args).2.sets (RKey.setIdx "M" "A") "7" = false ∧
      (redisWriterLua c9Store c9Args).2.sets (RKey.setIdx "M" "B") "7" =
        c9Store.sets (RKey.setIdx "M" "B") "7" := by
  have h := c9_legacy_manifest_wins c9Store c9Args
    { sets := ["A"], scored := [], pre := [], suf := [], geo := [] }
    (by decide) rfl rfl rfl rfl rfl rfl rfl
  exact ⟨h.1 "A" (by decide),
    h.2 { sets := ["B"], scored := [], pre := [], suf := [], geo := [] }
      (by decide) "B" (by decide) (by decide)⟩

/-- The empty backing store. -/
def emptyStore : Store where
  hashes := fun _ _ => none
  sets := fun _ _ => false
  zsets := fun _ _ => none

/-- A fresh save of record 7 in namespace `G` carrying exactly one geo index
entry named `loc` at longitude 1, latitude 2. -/
def c1Args : WriteArgs where
  ns := "G"
  id := "7"
  unique := []
  udelete := []
  deleted := []
  data := [("pk", "7")]
  keys := []
  scored := []
  pre := []
  suf := []
  geo := [("loc", 1, 2)]
  oldData := []
  isDelete := false

/-- The subsequent delete of the same record. -/
def c1DelArgs : WriteArgs where
  ns := "G"
  id := "7"
  unique := []
  udelete := []
  deleted := []
  data := []
  keys := []
  scored := []
  pre := []
  suf := []
  geo := []
  oldData := []
  isDelete := true

/-- C1: the geo loop of the writer appends the geo name to `nsuffix` instead
of `ngeo`, so after a save with one geo entry the geo index holds the id but
the stored manifest's geo (fifth) slot is empty — the name sits as a bare
string in the suffix slot — violating invariant I1; consequently the following
delete removes the record but leaves the geo index entry orphaned. -/
theorem c1_geo_manifest_slip :
    (redisWriterLua emptyStore c1Args).2.zsets (RKey.geoIdx "G" "loc") "7" =
        some (geohashScore 1 2) ∧
      (redisWriterLua emptyStore c1Args).2.hashes (RKey.row "G" "7") "-index-data-" =
        some (.man { sets := [], scored := [], pre := [],
                     suf := [SufItem.bare "loc"], geo := [] }) ∧
      (redisWriterLua (redisWriterLua emptyStore c1Args).2 c1DelArgs).2.hashes
          (RKey.row "G" "7") "pk" = none ∧
      (redisWriterLua (redisWriterLua emptyStore c1Args).2 c1DelArgs).2.zsets
          (RKey.geoIdx "G" "loc") "7" = some (geohashScore 1 2) := by
  refine ⟨by decide, by decide, by decide, by decide⟩

/-! ## The `PrimaryKey` descriptor (`src/rom/columns.py`) -/

/-- Errors raised by the column descriptors. -/
inductive ColError
  | invalidOperation
  | invalidColumnValue
deriving DecidableEq

/-- The slice of entity state the primary-key descriptor touches: the
column-data mapping (`_data`, modelled as a lookup list), the `_init` flag that
`Model.__init__` raises once construction finishes, and `_modified`. -/
structure PkEntity where
  data : List (String × ℤ)
  init : Bool
  modified : Bool
deriving DecidableEq

/-- Embedding of `PrimaryKey._init_`: with no value, loading raises
`InvalidColumnValue`; a new entity allocates its id with `INCR` on the
`<model>:<attr>:` counter (the incremented value) and marks itself modified;
a supplied value is kept via `int(value)`.  Returns the updated entity, the
updated counter, and the raised error, if any. -/
def pkInit (e : PkEntity) (attr : String) (value : Option ℤ) (loading : Bool)
    (counter : ℤ) : PkEntity × ℤ × Option ColError :=
  match value with
  | none =>
      if loading then (e, counter, some .invalidColumnValue)
      else
        ({ e with data := (attr, counter + 1) :: e.data, modified := true },
          counter + 1, none)
  | some v => ({ e with data := (attr, v) :: e.data }, counter, none)

/-- Embedding of `PrimaryKey.__set__`: before `_init` completes it delegates
to `_init_`; on an initialized entity every assignment raises
`InvalidOperation` before touching anything. -/
def pkSet (e : PkEntity) (attr : String) (value : Option ℤ) (loading : Bool)
    (counter : ℤ) : PkEntity × ℤ × Option ColError :=
  if e.init then (e, counter, some .invalidOperation)
  else pkInit e attr value loading counter

/-- C10: on an initialized entity (new or loaded) every assignment to the
primary-key attribute raises `InvalidOperation` with the entity data and the
id counter unchanged; the key is set exactly once, at construction — for a
new entity by an atomic increment of the `<ns>:<pkey>:` counter, for a loaded
entity from the loaded value. -/
theorem c10_primary_key_immutable (e : PkEntity) (attr : String) (value : Option ℤ)
    (loading : Bool) (counter : ℤ) :
    (e.init = true →
      pkSet e attr value loading counter = (e, counter, some .invalidOperation)) ∧
    (e.init = false → value = none → loading = false →
      pkSet e attr value loading counter =
        ({ e with data := (attr, counter + 1) :: e.data, modified := true },
          counter + 1, none)) ∧
    (e.init = false → ∀ v, value = some v →
      pkSet e attr value loading counter =
        ({ e with data := (attr, v) :: e.data }, counter, none)) := by
  refine ⟨?_, ?_, ?_⟩
  · intro h
    unfold pkSet
    rw [if_pos h]
  · intro h hv hl
    unfold pkSet pkInit
    rw [if_neg (by rw [h]; exact Bool.false_ne_true), hv, hl]
    rfl
  · intro h v hv
    unfold pkSet pkInit
    rw [if_neg (by rw [h]; exact Bool.false_ne_true), hv]

/-- Witness for C10 at concrete entities: an initialized entity rejects the
assignment unchanged; a new entity allocates `counter + 1`. -/
theorem c10_witness :
    pkSet ⟨[("id", 5)], true, false⟩ "id" (some 9) false 7 =
        (⟨[("id", 5)], true, false⟩, 7, some .invalidOperation) ∧
      pkSet ⟨[], false, false⟩ "id" none false 7 =
        (⟨[("id", 8)], false, true⟩, 8, none) :=
  ⟨(c10_primary_key_immutable ⟨[("id", 5)], true, false⟩ "id" (some 9) false 7).1 rfl,
    (c10_primary_key_immutable ⟨[], false, false⟩ "id" none false 7).2.1 rfl rfl rfl⟩

/-! ## Column serialisation codecs (`src/rom/columns.py`)

The claims on persistence round-trips concern the composition of each
column's `_to_redis` and `_from_redis` (the load path of `Column._init_`).
The store transports strings; the `Wire` type below records the information
content of the transported string per codec family.  Python's `str`/`int`,
`repr`/`float` and `str`/`Decimal` pairs are exact inverses on their domains
(floats are binary64, modelled by their exact rational values), so the decimal
rendering itself is not re-modelled; the byte-string and JSON codecs, whose
behaviour the claims probe, are modelled at full depth. -/

/-- Python values storable in a `Json` column: the JSON-serialisable types
plus tuples (`Json._allowed = (dict, list, tuple)`). -/
inductive PyJson
  | null
  | b (v : Bool)
  | i (v : ℤ)
  | f (v : ℚ)
  | s (v : String)
  | arr (l : List PyJson)
  | tup (l : List PyJson)
  | obj (l : List (String × PyJson))

/-- Wire JSON documents (what `json.dumps` writes and `json.loads` reads):
tuples do not exist on the wire. -/
inductive JTree
  | null
  | b (v : Bool)
  | i (v : ℤ)
  | f (v : ℚ)
  | s (v : String)
  | arr (l : List JTree)
  | obj (l : List (String × JTree))

mutual

/-- Embedding of `json.dumps` as used by `Json._to_redis`: tuples and lists
both serialise to arrays.  The source passes `sort_keys=True`, which affects
only the serialised key order — invisible to dict equality — so the model
keeps insertion order. -/
def dumps : PyJson → JTree
  | .null => .null
  | .b v => .b v
  | .i v => .i v
  | .f v => .f v
  | .s v => .s v
  | .arr l => .arr (dumpsList l)
  | .tup l => .arr (dumpsList l)
  | .obj l => .obj (dumpsObj l)

/-- `dumps` mapped over an array body. -/
def dumpsList : List PyJson → List JTree
  | [] => []
  | x :: xs => dumps x :: dumpsList xs

/-- `dumps` mapped over an object body. -/
def dumpsObj : List (String × PyJson) → List (String × JTree)
  | [] => []
  | x :: xs => (x.1, dumps x.2) :: dumpsObj xs

end

mutual

/-- Embedding of `json.loads` as used by `Json._from_redis`: arrays come back
as lists, never as tuples. -/
def loads : JTree → PyJson
  | .null => .null
  | .b v => .b v
  | .i v => .i v
  | .f v => .f v
  | .s v => .s v
  | .arr l => .arr (loadsList l)
  | .obj l => .obj (loadsObj l)

/-- `loads` mapped over an array body. -/
def loadsList : List JTree → List PyJson
  | [] => []
  | x :: xs => loads x :: loadsList xs

/-- `loads` mapped over an object body. -/
def loadsObj : List (String × JTree) → List (String × PyJson)
  | [] => []
  | x :: xs => (x.1, loads x.2) :: loadsObj xs

end

mutual

/-- A JSON value contains no tuple anywhere. -/
def noTup : PyJson → Bool
  | .null => true
  | .b _ => true
  | .i _ => true
  | .f _ => true
  | .s _ => true
  | .arr l => noTupList l
  | .tup _ => false
  | .obj l => noTupObj l

/-- `noTup` over an array body. -/
def noTupList : List PyJson → Bool
  | [] => true
  | x :: xs => noTup x && noTupList xs

/-- `noTup` over an object body. -/
def noTupObj : List (String × PyJson) → Bool
  | [] => true
  | x :: xs => noTup x.2 && noTupObj xs

end

mutual

/-- The JSON codec round-trips exactly on tuple-free values. -/
theorem loads_dumps : ∀ (v : PyJson), noTup v = true → loads (dumps v) = v
  | .null, _ => rfl
  | .b _, _ => rfl
  | .i _, _ => rfl
  | .f _, _ => rfl
  | .s _, _ => rfl
  | .arr l, h => by
      rw [dumps, loads, loads_dumpsList l (by rwa [noTup] at h)]
  | .obj l, h => by
      rw [dumps, loads, loads_dumpsObj l (by rwa [noTup] at h)]

/-- `loads_dumps` over an array body. -/
theorem loads_dumpsList : ∀ (l : List PyJson), noTupList l = true →
    loadsList (dumpsList l) = l
  | [], _ => rfl
  | x :: xs, h => by
      rw [noTupList, Bool.and_eq_true] at h
      rw [dumpsList, loadsList, loads_dumps x h.1, loads_dumpsList xs h.2]

/-- `loads_dumps` over an object body. -/
theorem loads_dumpsObj : ∀ (l : List (String × PyJson)), noTupObj l = true →
    loadsObj (dumpsObj l) = l
  | [], _ => rfl
  | x :: xs, h => by
      rw [noTupObj, Bool.and_eq_true] at h
      rw [dumpsObj, loadsObj, loads_dumps x.2 h.1, loads_dumpsObj xs h.2]

end

/-- The byte-to-wire leg of the `String` (bytes) column:
`value.decode('latin-1').encode('utf-8')`, i.e. the UTF-8 encoding of code
points 0–255. -/
def latin1ToUtf8 (bs : Bytes) : Bytes :=
  bs.flatMap (fun b => if b < 128 then [b] else [192 + b / 64, 128 + b % 64])

/-- The wire-to-byte leg used on load
(`value.decode('utf-8').encode('latin-1')` in `String._init_`): parse the
UTF-8 sequences of code points 0–255 back to latin-1 bytes. -/
def utf8ToLatin1 : Bytes → Option Bytes
  | [] => some []
  | b :: rest =>
      if b < 128 then (utf8ToLatin1 rest).map (fun r => b :: r)
      else
        match rest with
        | [] => none
        | b2 :: rest2 =>
            if 192 ≤ b ∧ b ≤ 195 ∧ 128 ≤ b2 ∧ b2 < 192 then
              (utf8ToLatin1 rest2).map (fun r => ((b - 192) * 64 + (b2 - 128)) :: r)
            else none

lemma utf8ToLatin1_ascii (b : ℕ) (h : b < 128) (rest : Bytes) :
    utf8ToLatin1 (b :: rest) = (utf8ToLatin1 rest).map (fun r => b :: r) := by
  rw [utf8ToLatin1.eq_def]
  dsimp only
  rw [if_pos h]

lemma utf8ToLatin1_hi (b b2 : ℕ) (rest : Bytes) (h : ¬b < 128)
    (hg : 192 ≤ b ∧ b ≤ 195 ∧ 128 ≤ b2 ∧ b2 < 192) :
    utf8ToLatin1 (b :: b2 :: rest) =
      (utf8ToLatin1 rest).map (fun r => ((b - 192) * 64 + (b2 - 128)) :: r) := by
  rw [utf8ToLatin1.eq_def]
  dsimp only
  rw [if_neg h, if_pos hg]

lemma utf8_latin1_roundtrip : ∀ (bs : Bytes), (∀ b ∈ bs, b < 256) →
    utf8ToLatin1 (latin1ToUtf8 bs) = some bs := by
  intro bs
  induction bs with
  | nil => intro _; rfl
  | cons b rest ih =>
      intro hb
      have hrest := ih (fun x hx => hb x (List.mem_cons_of_mem b hx))
      have hb0 : b < 256 := hb b (List.mem_cons_self b rest)
      rw [latin1ToUtf8] at hrest ⊢
      rw [List.flatMap_cons]
      by_cases h : b < 128
      · rw [if_pos h, List.singleton_append, utf8ToLatin1_ascii b h, hrest]
        rfl
      · rw [if_neg h, List.cons_append, List.cons_append, List.nil_append,
          utf8ToLatin1_hi _ _ _ (by omega) (by omega), hrest]
        have hv : (192 + b / 64 - 192) * 64 + (128 + b % 64 - 128) = b := by omega
        rw [hv]
        rfl

/-- The column families of the round-trip claim. -/
inductive ColType
  | integer
  | flt
  | deci
  | boolean
  | dtime
  | text
  | bytes
  | json
deriving DecidableEq

/-- Python-side column values.  `DateTime` values are represented by their
epoch timestamp (`dt2ts`), floats and decimals by exact rationals. -/
inductive PyVal
  | i (v : ℤ)
  | f (v : ℚ)
  | d (v : ℚ)
  | b (v : Bool)
  | t (ts : ℚ)
  | s (v : String)
  | byt (v : Bytes)
  | j (v : PyJson)

/-- Wire values stored in the record hash, indexed by the information content
of the transported string (decimal integer text, numeric repr text, plain
text, raw bytes, JSON text). -/
inductive Wire
  | wstr (s : String)
  | wint (v : ℤ)
  | wnum (v : ℚ)
  | wbytes (b : Bytes)
  | wjson (t : JTree)

/-- Embedding of each column's `_to_redis` (Python 3 semantics): `Integer`
uses `str`, `Float` `repr`, `Decimal` `str`, `Boolean` `'1'`/`''`,
`DateTime` `repr(dt2ts(·))`, `Text` the identity, `String` the latin-1 to
UTF-8 re-encoding, `Json` `json.dumps`; a value of the wrong type raises
(`none`). -/
def toRedis : ColType → PyVal → Option Wire
  | .integer, .i v => some (.wint v)
  | .flt, .f v => some (.wnum v)
  | .deci, .d v => some (.wnum v)
  | .boolean, .b v => some (.wstr (if v then "1" else ""))
  | .dtime, .t ts => some (.wnum ts)
  | .text, .s v => some (.wstr v)
  | .bytes, .byt bs => some (.wbytes (latin1ToUtf8 bs))
  | .json, .j v => some (.wjson (dumps v))
  | _, _ => none

/-- Embedding of each column's load conversion (`_from_redis`, and
`String._init_`'s loading re-encoding): `int`, `float`, `Decimal`,
`bool` (empty string is false), `ts2dt(float(·))`, identity, UTF-8 to
latin-1, `json.loads`. -/
def fromRedis : ColType → Wire → Option PyVal
  | .integer, .wint v => some (.i v)
  | .flt, .wnum v => some (.f v)
  | .deci, .wnum v => some (.d v)
  | .boolean, .wstr s => some (.b (s != ""))
  | .dtime, .wnum v => some (.t v)
  | .text, .wstr s => some (.s s)
  | .bytes, .wbytes u => (utf8ToLatin1 u).map .byt
  | .json, .wjson t => some (.j (loads t))
  | _, _ => none

/-- Model-level well-formedness of a column value: JSON values are tuple-free
for the amended claim, byte strings hold bytes. -/
def wfVal : PyVal → Bool
  | .j v => noTup v
  | .byt bs => bs.all (fun b => decide (b < 256))
  | _ => true

lemma toRedis_fromRedis (ct : ColType) (v : PyVal) (w : Wire) (hwf : wfVal v = true)
    (h : toRedis ct v = some w) : fromRedis ct w = some v := by
  cases ct <;> cases v <;> simp only [toRedis] at h <;> try exact Option.noConfusion h
  all_goals obtain rfl := (Option.some.inj h).symm
  · rfl
  · rfl
  · rfl
  · rename_i b
    cases b <;> rfl
  · rfl
  · rfl
  · rename_i bs
    rw [fromRedis, utf8_latin1_roundtrip bs ?_]
    · rfl
    · intro x hx
      rw [wfVal, List.all_eq_true] at hwf
      simpa using hwf x hx
  · rename_i jv
    rw [fromRedis, loads_dumps jv (by rwa [wfVal] at hwf)]

/-- The persistence of a record's column map on save (`Model.save` →
`_apply_changes` → `_to_redis` per present column → `HMSET`). -/
def saveRecord (schema : String → Option ColType) :
    List (String × PyVal) → Option (List (String × Wire))
  | [] => some []
  | p :: rest =>
      match schema p.1 with
      | none => none
      | some ct =>
          match toRedis ct p.2 with
          | none => none
          | some w => (saveRecord schema rest).map (fun t => (p.1, w) :: t)

/-- The load of a record's hash on a fresh fetch (`Model.get` → `HGETALL` →
`cls(_loading=True, **data)` → per-column load conversion). -/
def loadRecord (schema : String → Option ColType) :
    List (String × Wire) → Option (List (String × PyVal))
  | [] => some []
  | p :: rest =>
      match schema p.1 with
      | none => none
      | some ct =>
          match fromRedis ct p.2 with
          | none => none
          | some v => (loadRecord schema rest).map (fun t => (p.1, v) :: t)

/-- A one-column schema with a `Json` column `v`. -/
def c7Schema : String → Option ColType := fun f => if f = "v" then some ColType.json else none

/-- C7 counterexample: a JSON value containing a tuple is serialised as an
array and loaded back as a list, so the loaded column map differs from the
saved one — the round-trip fails for tuples. -/
theorem c7_counterexample :
    saveRecord c7Schema [("v", PyVal.j (.tup [.i 1, .i 2]))] =
        some [("v", Wire.wjson (.arr [.i 1, .i 2]))] ∧
      loadRecord c7Schema [("v", Wire.wjson (.arr [.i 1, .i 2]))] =
        some [("v", PyVal.j (.arr [.i 1, .i 2]))] ∧
      ([("v", PyVal.j (.arr [.i 1, .i 2]))] : List (String × PyVal)) ≠
        [("v", PyVal.j (.tup [.i 1, .i 2]))] := by
  refine ⟨rfl, rfl, by simp⟩

/-- C7 (amended): for records whose fields hold well-typed values of the
supported families — integer, float, decimal, boolean, timestamp, text,
bytes, and JSON values containing no tuples (tuples are serialised as JSON
arrays and come back as lists) — a fresh load of the saved hash reproduces
the column-data map exactly. -/
theorem c7_round_trip (schema : String → Option ColType) :
    ∀ (r : List (String × PyVal)) (w : List (String × Wire)),
      (∀ p ∈ r, wfVal p.2 = true) →
      saveRecord schema r = some w → loadRecord schema w = some r := by
  intro r
  induction r with
  | nil =>
      intro w _ h
      obtain rfl := (Option.some.inj h).symm
      rfl
  | cons p rest ih =>
      intro w hwf h
      rw [saveRecord] at h
      cases hs : schema p.1 with
      | none => rw [hs] at h; exact Option.noConfusion h
      | some ct =>
          rw [hs] at h
          dsimp only at h
          cases htr : toRedis ct p.2 with
          | none => rw [htr] at h; exact Option.noConfusion h
          | some pw =>
              rw [htr] at h
              dsimp only at h
              cases hrest : saveRecord schema rest with
              | none => rw [hrest] at h; exact Option.noConfusion h
              | some wrest =>
                  rw [hrest] at h
                  simp only [Option.map_some', Option.some.injEq] at h
                  subst h
                  rw [loadRecord, hs]
                  dsimp only
                  rw [toRedis_fromRedis ct p.2 pw (hwf p (List.mem_cons_self p rest)) htr]
                  dsimp only
                  rw [ih wrest (fun q hq => hwf q (List.mem_cons_of_mem p hq)) hrest]
                  rfl

/-- A four-column schema exercising integer, boolean, JSON and bytes. -/
def c7WSchema : String → Option ColType := fun f =>
  if f = "n" then some ColType.integer
  else if f = "b" then some ColType.boolean
  else if f = "j" then some ColType.json
  else if f = "s" then some ColType.bytes
  else none

/-- Witness for C7 (amended) on a concrete record over `c7WSchema`. -/
theorem c7_witness :
    loadRecord c7WSchema
        [("n", Wire.wint 5), ("b", Wire.wstr "1"),
          ("j", Wire.wjson (.obj [("k", .arr [.i 1])])),
          ("s", Wire.wbytes [104, 195, 136])] =
      some [("n", PyVal.i 5), ("b", PyVal.b true),
        ("j", PyVal.j (.obj [("k", .arr [.i 1])])),
        ("s", PyVal.byt [104, 200])] :=
  c7_round_trip c7WSchema
    [("n", PyVal.i 5), ("b", PyVal.b true),
      ("j", PyVal.j (.obj [("k", .arr [.i 1])])),
      ("s", PyVal.byt [104, 200])]
    [("n", Wire.wint 5), ("b", Wire.wstr "1"),
      ("j", Wire.wjson (.obj [("k", .arr [.i 1])])),
      ("s", Wire.wbytes [104, 195, 136])]
    (by intro p hp; fin_cases hp <;> rfl)
    rfl

end Rom
